import Mathlib

/-!
Verification of the identifier codec and node dispatcher generated by the
async-graphql-relay derive macros (src/derive/src/lib.rs).

The crate is a proc-macro crate; the semantics under study is the code the
two macros emit:

* RelayGlobalID emits an encoder From<&ID> for String: it panics when the
  stored UUID string is shorter than 36 characters, otherwise removes the
  characters at indices 8, 12, 16, 20 (i.e. the canonical hyphen offsets
  8, 13, 18, 23 of the original string) and appends the decimal rendering
  of the node-type discriminant.

* RelayNodeEnum emits Node::get: it returns None when the input is shorter
  than 32 characters, otherwise splits at index 32, re-inserts hyphens at
  indices 8, 13, 18, 23 of the prefix, and matches the suffix against the
  literal tag strings "1", "2", ..., "n" (one per enum variant, in
  declaration order), dispatching to that variant's loader; any other
  suffix yields None.

Strings are modelled as List Char (the identifiers involved are ASCII, so
Rust's byte indices coincide with character indices). A Rust panic is
modelled as the none case of an Option result. Loaders are arbitrary
functions Nat → List Char → Option α: the Nat is the matched tag, the
List Char the reconstructed canonical id, and α stands for the Node type.
-/

namespace RelayVerify

/-- Rust String::remove(i): drops the character at index i; an
out-of-range index leaves the list unchanged (every call site in the
generated code is guarded so that the index is in range). -/
def rmAt : List Char → Nat → List Char
  | [], _ => []
  | _ :: l, 0 => l
  | x :: l, n + 1 => x :: rmAt l n

/-- Rust String::insert(i, c): inserts c before index i; an out-of-range
index leaves the list unchanged (the generated code only inserts into a
32-character string at indices 8, 13, 18, 23). -/
def insAt : Nat → Char → List Char → List Char
  | 0, c, l => c :: l
  | _ + 1, _, [] => []
  | n + 1, c, x :: l => x :: insAt n c l

/-- Hyphen removal performed by the generated From impl (lib.rs 38-41):
uuid.remove(8); uuid.remove(12); uuid.remove(16); uuid.remove(20),
applied sequentially to the mutable string. -/
def compact (u : List Char) : List Char :=
  rmAt (rmAt (rmAt (rmAt u 8) 12) 16) 20

/-- Hyphen insertion performed by the generated Node::get (lib.rs 132-135):
id.insert(8, '-'); id.insert(13, '-'); id.insert(18, '-');
id.insert(23, '-'), applied sequentially. -/
def expand (s : List Char) : List Char :=
  insAt 23 '-' (insAt 18 '-' (insAt 13 '-' (insAt 8 '-' s)))

/-- Fuel-driven decimal formatter: most-significant digit first, no
padding and no leading zeros, mirroring Rust's Display for u32 used by
format!("{}{}", uuid, node_type) at lib.rs 42. -/
def decStrAux : Nat → Nat → List Char
  | 0, _ => []
  | fuel + 1, m =>
    if m < 10 then [Char.ofNat (48 + m)]
    else decStrAux fuel (m / 10) ++ [Char.ofNat (48 + m % 10)]

/-- Decimal string of a tag value (minimal decimal representation). -/
def decStr (m : Nat) : List Char := decStrAux (m + 1) m

/-- Encoder generated by RelayGlobalID (lib.rs 30-44). The guard
uuid.len() < 36 panics in the Rust code; the panic is modelled as none. -/
def encode (uuid : List Char) (tag : Nat) : Option (List Char) :=
  if uuid.length < 36 then none
  else some (compact uuid ++ decStr tag)

/-- Decoding half of the generated Node::get (lib.rs 127-135): reject
inputs shorter than 32, split at 32, expand the prefix back to canonical
form, and keep the raw suffix as the tag string. -/
def decode (g : List Char) : Option (List Char × List Char) :=
  if g.length < 32 then none
  else some (expand (g.take 32), g.drop 32)

/-- Sequential first-match over the literal tag strings decStr t,
decStr (t+1), ..., k strings in all: the shallow embedding of the match
arms the macro emits in variant declaration order (lib.rs 137-142). -/
def lookupFrom : Nat → Nat → List Char → Option Nat
  | _, 0, _ => none
  | t, k + 1, s => if decStr t = s then some t else lookupFrom (t + 1) k s

/-- Registry lookup: an enum with n variants carries tag strings
"1", ..., decStr n; the match tries them in that order. -/
def lookupTag (n : Nat) (s : List Char) : Option Nat := lookupFrom 1 n s

/-- Tag strings assigned by the macro, in declaration order: lib.rs 114,
(0..variants.len()).map(|v| (v + 1).to_string()). -/
def variantNodeType (n : Nat) : List (List Char) :=
  (List.range n).map (fun v => decStr (v + 1))

/-- Dispatcher generated by RelayNodeEnum (lib.rs 126-143) for an enum
with n variants: length guard, split at 32, hyphen re-insertion, then the
literal string match routing to the matched variant's loader. -/
def nodeGet {α : Type} (n : Nat) (loader : Nat → List Char → Option α)
    (s : List Char) : Option α :=
  if s.length < 32 then none
  else
    match lookupTag n (s.drop 32) with
    | some t => loader t (expand (s.take 32))
    | none => none

/-- Well-formed canonical UUID string: exactly 36 characters with hyphens
at offsets 8, 13, 18, 23. -/
def isCanonical (u : List Char) : Prop :=
  u.length = 36 ∧ u[8]? = some '-' ∧ u[13]? = some '-' ∧
    u[18]? = some '-' ∧ u[23]? = some '-'

instance : DecidablePred isCanonical := fun u => by
  unfold isCanonical; infer_instance

theorem rmAt_append (a : List Char) (c : Char) (b : List Char) :
    rmAt (a ++ c :: b) a.length = a ++ b := by
  induction a with
  | nil => rfl
  | cons x xs ih => simpa [rmAt] using ih

theorem insAt_append (a : List Char) (c : Char) (b : List Char) :
    insAt a.length c (a ++ b) = a ++ c :: b := by
  induction a with
  | nil => rfl
  | cons x xs ih => simpa [insAt] using ih

theorem rmAt_length (l : List Char) (i : Nat) (h : i < l.length) :
    (rmAt l i).length = l.length - 1 := by
  induction l generalizing i with
  | nil => simp at h
  | cons x xs ih =>
    cases i with
    | zero => simp [rmAt]
    | succ n =>
      have hn : n < xs.length := by simpa using h
      have := ih n hn
      simp only [rmAt, List.length_cons, this]
      omega

theorem decStrAux_ne_nil (fuel m : Nat) : decStrAux (fuel + 1) m ≠ [] := by
  unfold decStrAux
  split
  · simp
  · simp

theorem decStr_ne_nil (m : Nat) : decStr m ≠ [] := decStrAux_ne_nil m m

theorem decStrAux_head_ne_zero (fuel : Nat) :
    ∀ m c l, m < fuel → 1 ≤ m → decStrAux fuel m = c :: l → c ≠ '0' := by
  induction fuel with
  | zero => intro m c l h; omega
  | succ f ih =>
    intro m c l hm h1 heq
    by_cases h10 : m < 10
    · unfold decStrAux at heq
      rw [if_pos h10] at heq
      have hc : Char.ofNat (48 + m) = c := by
        simpa using congrArg List.head? heq
      subst hc
      interval_cases m <;> decide
    · unfold decStrAux at heq
      rw [if_neg h10] at heq
      have hq1 : 1 ≤ m / 10 := by
        have : 10 ≤ m := by omega
        exact Nat.one_le_div_iff (by norm_num) |>.mpr (by omega)
      have hqf : m / 10 < f := by
        have : m / 10 < m := Nat.div_lt_self (by omega) (by norm_num)
        omega
      cases f with
      | zero => omega
      | succ f2 =>
        cases hd : decStrAux (f2 + 1) (m / 10) with
        | nil => exact absurd hd (decStrAux_ne_nil f2 (m / 10))
        | cons x xs =>
          rw [hd] at heq
          have hx : x = c := by
            simpa using congrArg List.head? heq
          subst hx
          exact ih (m / 10) x xs hqf hq1 hd

theorem decStr_head_ne_zero (m : Nat) (c : Char) (l : List Char)
    (h1 : 1 ≤ m) (heq : decStr m = c :: l) : c ≠ '0' :=
  decStrAux_head_ne_zero (m + 1) m c l (Nat.lt_succ_self m) h1 heq

theorem decStr_ne_single_zero (m : Nat) (h : 1 ≤ m) : decStr m ≠ ['0'] :=
  fun heq => decStr_head_ne_zero m '0' [] h heq rfl

theorem decStr_ne_zero_one (m : Nat) (h : 1 ≤ m) : decStr m ≠ ['0', '1'] :=
  fun heq => decStr_head_ne_zero m '0' ['1'] h heq rfl

theorem lookupFrom_eq_some (k : Nat) :
    ∀ a s t, lookupFrom a k s = some t → a ≤ t ∧ t < a + k ∧ decStr t = s := by
  induction k with
  | zero => intro a s t h; simp [lookupFrom] at h
  | succ k ih =>
    intro a s t h
    unfold lookupFrom at h
    by_cases hc : decStr a = s
    · rw [if_pos hc] at h
      cases h
      exact ⟨Nat.le_refl _, by omega, hc⟩
    · rw [if_neg hc] at h
      obtain ⟨h1, h2, h3⟩ := ih (a + 1) s t h
      exact ⟨by omega, by omega, h3⟩

theorem lookupFrom_eq_none (k : Nat) :
    ∀ a s, (∀ t, a ≤ t → t < a + k → decStr t ≠ s) → lookupFrom a k s = none := by
  induction k with
  | zero => intro a s _; rfl
  | succ k ih =>
    intro a s h
    unfold lookupFrom
    rw [if_neg (h a (Nat.le_refl a) (by omega))]
    exact ih (a + 1) s (fun t h1 h2 => h t (by omega) (by omega))

theorem lookupTag_eq_some (n : Nat) (s : List Char) (t : Nat)
    (h : lookupTag n s = some t) : 1 ≤ t ∧ t ≤ n ∧ decStr t = s := by
  obtain ⟨h1, h2, h3⟩ := lookupFrom_eq_some n 1 s t h
  exact ⟨h1, by omega, h3⟩

theorem canonical_decomp (U : List Char) (h : isCanonical U) :
    ∃ A B C D E : List Char, A.length = 8 ∧ B.length = 4 ∧ C.length = 4 ∧
      D.length = 4 ∧ E.length = 12 ∧
      U = A ++ '-' :: (B ++ '-' :: (C ++ '-' :: (D ++ '-' :: E))) := by
  obtain ⟨hlen, h8, h13, h18, h23⟩ := h
  have l8 : 8 < U.length := by omega
  have l13 : 13 < U.length := by omega
  have l18 : 18 < U.length := by omega
  have l23 : 23 < U.length := by omega
  have g8 : U[8] = '-' := by
    rw [List.getElem?_eq_getElem l8] at h8
    exact Option.some.inj h8
  have g13 : U[13] = '-' := by
    rw [List.getElem?_eq_getElem l13] at h13
    exact Option.some.inj h13
  have g18 : U[18] = '-' := by
    rw [List.getElem?_eq_getElem l18] at h18
    exact Option.some.inj h18
  have g23 : U[23] = '-' := by
    rw [List.getElem?_eq_getElem l23] at h23
    exact Option.some.inj h23
  have e8 : U.drop 8 = '-' :: U.drop 9 := by
    rw [List.drop_eq_getElem_cons l8, g8]
  have e13 : U.drop 13 = '-' :: U.drop 14 := by
    rw [List.drop_eq_getElem_cons l13, g13]
  have e18 : U.drop 18 = '-' :: U.drop 19 := by
    rw [List.drop_eq_getElem_cons l18, g18]
  have e23 : U.drop 23 = '-' :: U.drop 24 := by
    rw [List.drop_eq_getElem_cons l23, g23]
  have s9 : U.drop 9 = (U.drop 9).take 4 ++ U.drop 13 := by
    conv_lhs => rw [← List.take_append_drop 4 (U.drop 9)]
    rw [List.drop_drop]
  have s14 : U.drop 14 = (U.drop 14).take 4 ++ U.drop 18 := by
    conv_lhs => rw [← List.take_append_drop 4 (U.drop 14)]
    rw [List.drop_drop]
  have s19 : U.drop 19 = (U.drop 19).take 4 ++ U.drop 23 := by
    conv_lhs => rw [← List.take_append_drop 4 (U.drop 19)]
    rw [List.drop_drop]
  refine ⟨U.take 8, (U.drop 9).take 4, (U.drop 14).take 4, (U.drop 19).take 4,
    U.drop 24, ?_, ?_, ?_, ?_, ?_, ?_⟩
  · simp [List.length_take]; omega
  · simp [List.length_take, List.length_drop]; omega
  · simp [List.length_take, List.length_drop]; omega
  · simp [List.length_take, List.length_drop]; omega
  · simp [List.length_drop]; omega
  · conv_lhs => rw [← List.take_append_drop 8 U, e8, s9, e13, s14, e18, s19, e23]

theorem compact_decomp (A B C D E : List Char) (hA : A.length = 8)
    (hB : B.length = 4) (hC : C.length = 4) (hD : D.length = 4) :
    compact (A ++ '-' :: (B ++ '-' :: (C ++ '-' :: (D ++ '-' :: E)))) =
      (((A ++ B) ++ C) ++ D) ++ E := by
  have r1 : rmAt (A ++ '-' :: (B ++ '-' :: (C ++ '-' :: (D ++ '-' :: E)))) 8
      = A ++ (B ++ '-' :: (C ++ '-' :: (D ++ '-' :: E))) := by
    conv_lhs => rw [← hA]
    exact rmAt_append A '-' _
  have h12 : (A ++ B).length = 12 := by simp [hA, hB]
  have r2 : rmAt (A ++ (B ++ '-' :: (C ++ '-' :: (D ++ '-' :: E)))) 12
      = (A ++ B) ++ (C ++ '-' :: (D ++ '-' :: E)) := by
    have hsp : A ++ (B ++ '-' :: (C ++ '-' :: (D ++ '-' :: E)))
        = (A ++ B) ++ '-' :: (C ++ '-' :: (D ++ '-' :: E)) := by
      simp [List.append_assoc]
    rw [hsp]
    conv_lhs => rw [← h12]
    exact rmAt_append (A ++ B) '-' _
  have h16 : ((A ++ B) ++ C).length = 16 := by simp [hA, hB, hC]
  have r3 : rmAt ((A ++ B) ++ (C ++ '-' :: (D ++ '-' :: E))) 16
      = ((A ++ B) ++ C) ++ (D ++ '-' :: E) := by
    have hsp : (A ++ B) ++ (C ++ '-' :: (D ++ '-' :: E))
        = ((A ++ B) ++ C) ++ '-' :: (D ++ '-' :: E) := by
      simp [List.append_assoc]
    rw [hsp]
    conv_lhs => rw [← h16]
    exact rmAt_append ((A ++ B) ++ C) '-' _
  have h20 : (((A ++ B) ++ C) ++ D).length = 20 := by simp [hA, hB, hC, hD]
  have r4 : rmAt (((A ++ B) ++ C) ++ (D ++ '-' :: E)) 20
      = ((((A ++ B) ++ C) ++ D) ++ E) := by
    have hsp : ((A ++ B) ++ C) ++ (D ++ '-' :: E)
        = (((A ++ B) ++ C) ++ D) ++ '-' :: E := by
      simp [List.append_assoc]
    rw [hsp]
    conv_lhs => rw [← h20]
    exact rmAt_append (((A ++ B) ++ C) ++ D) '-' _
  unfold compact
  rw [r1, r2, r3, r4]

theorem expand_decomp (A B C D E : List Char) (hA : A.length = 8)
    (hB : B.length = 4) (hC : C.length = 4) (hD : D.length = 4) :
    expand ((((A ++ B) ++ C) ++ D) ++ E) =
      A ++ '-' :: (B ++ '-' :: (C ++ '-' :: (D ++ '-' :: E))) := by
  have i1 : insAt 8 '-' ((((A ++ B) ++ C) ++ D) ++ E)
      = A ++ '-' :: (((B ++ C) ++ D) ++ E) := by
    have hsp : (((A ++ B) ++ C) ++ D) ++ E = A ++ (((B ++ C) ++ D) ++ E) := by
      simp [List.append_assoc]
    rw [hsp]
    conv_lhs => rw [← hA]
    exact insAt_append A '-' _
  have h13 : (A ++ '-' :: B).length = 13 := by simp [hA, hB]
  have i2 : insAt 13 '-' (A ++ '-' :: (((B ++ C) ++ D) ++ E))
      = (A ++ '-' :: B) ++ '-' :: ((C ++ D) ++ E) := by
    have hsp : A ++ '-' :: (((B ++ C) ++ D) ++ E)
        = (A ++ '-' :: B) ++ ((C ++ D) ++ E) := by
      simp [List.append_assoc]
    rw [hsp]
    conv_lhs => rw [← h13]
    exact insAt_append (A ++ '-' :: B) '-' _
  have h18 : ((A ++ '-' :: B) ++ '-' :: C).length = 18 := by simp [hA, hB, hC]
  have i3 : insAt 18 '-' ((A ++ '-' :: B) ++ '-' :: ((C ++ D) ++ E))
      = ((A ++ '-' :: B) ++ '-' :: C) ++ '-' :: (D ++ E) := by
    have hsp : (A ++ '-' :: B) ++ '-' :: ((C ++ D) ++ E)
        = ((A ++ '-' :: B) ++ '-' :: C) ++ (D ++ E) := by
      simp [List.append_assoc]
    rw [hsp]
    conv_lhs => rw [← h18]
    exact insAt_append ((A ++ '-' :: B) ++ '-' :: C) '-' _
  have h23 : (((A ++ '-' :: B) ++ '-' :: C) ++ '-' :: D).length = 23 := by
    simp [hA, hB, hC, hD]
  have i4 : insAt 23 '-' (((A ++ '-' :: B) ++ '-' :: C) ++ '-' :: (D ++ E))
      = (((A ++ '-' :: B) ++ '-' :: C) ++ '-' :: D) ++ '-' :: E := by
    have hsp : ((A ++ '-' :: B) ++ '-' :: C) ++ '-' :: (D ++ E)
        = (((A ++ '-' :: B) ++ '-' :: C) ++ '-' :: D) ++ E := by
      simp [List.append_assoc]
    rw [hsp]
    conv_lhs => rw [← h23]
    exact insAt_append (((A ++ '-' :: B) ++ '-' :: C) ++ '-' :: D) '-' _
  unfold expand
  rw [i1, i2, i3, i4]
  simp [List.append_assoc]

theorem expand_compact (U : List Char) (h : isCanonical U) :
    expand (compact U) = U := by
  obtain ⟨A, B, C, D, E, hA, hB, hC, hD, hE, hU⟩ := canonical_decomp U h
  rw [hU, compact_decomp A B C D E hA hB hC hD,
    expand_decomp A B C D E hA hB hC hD]

theorem compact_length (u : List Char) (h : 36 ≤ u.length) :
    (compact u).length = u.length - 4 := by
  have l1 : (rmAt u 8).length = u.length - 1 := rmAt_length u 8 (by omega)
  have l2 : (rmAt (rmAt u 8) 12).length = u.length - 2 := by
    rw [rmAt_length _ 12 (by rw [l1]; omega), l1]; omega
  have l3 : (rmAt (rmAt (rmAt u 8) 12) 16).length = u.length - 3 := by
    rw [rmAt_length _ 16 (by rw [l2]; omega), l2]; omega
  show (rmAt (rmAt (rmAt (rmAt u 8) 12) 16) 20).length = u.length - 4
  rw [rmAt_length _ 20 (by rw [l3]; omega), l3]; omega

theorem decStr_length_pos (m : Nat) : 0 < (decStr m).length :=
  List.length_pos.mpr (decStr_ne_nil m)

theorem nodeGet_eq_none_iff {α : Type} (n : Nat)
    (loader : Nat → List Char → Option α) (s : List Char) :
    nodeGet n loader s = none ↔
      s.length < 32 ∨ lookupTag n (s.drop 32) = none ∨
        ∃ t, lookupTag n (s.drop 32) = some t ∧
          loader t (expand (s.take 32)) = none := by
  unfold nodeGet
  by_cases hl : s.length < 32
  · simp [hl]
  · rw [if_neg hl]
    cases hlk : lookupTag n (s.drop 32) with
    | none => simp [hl, hlk]
    | some t => simp [hl, hlk]

theorem nodeGet_eq_some_iff {α : Type} (n : Nat)
    (loader : Nat → List Char → Option α) (s : List Char) (v : α) :
    nodeGet n loader s = some v ↔
      32 ≤ s.length ∧ ∃ t, lookupTag n (s.drop 32) = some t ∧
        loader t (expand (s.take 32)) = some v := by
  unfold nodeGet
  by_cases hl : s.length < 32
  · simp [hl, show ¬(32 ≤ s.length) from by omega]
  · rw [if_neg hl]
    cases hlk : lookupTag n (s.drop 32) with
    | none => simp [hlk, show 32 ≤ s.length from by omega]
    | some t => simp [hlk, show 32 ≤ s.length from by omega]

/-- Canonical UUID used throughout the concrete examples: the UUID of the
specification's concrete scenario. -/
def uuidEx : List Char := "123e4567-e89b-12d3-a456-426614174000".toList

/-- Global identifier the code actually produces in the concrete
scenario: the 32 compact characters followed by the tag digit 2. -/
def encodedEx : List Char := "123e4567e89b12d3a4564266141740002".toList

/-- Result literal printed in the specification for the concrete
scenario (it differs from what the code produces). -/
def specLiteral : List Char := "1234567e89b12d3a456426614174000 2".toList

/-- Identifier of length 37: canonical UUID with one trailing character,
accepted by the encoder's length guard. -/
def longId : List Char := "123e4567-e89b-12d3-a456-426614174000x".toList

/-- C1: for every well-formed canonical UUID U (36 characters, hyphens at
offsets 8, 13, 18, 23) and every tag T present in the registry (1 ≤ T ≤ n),
encoding yields compact U followed by the decimal tag string, and decoding
that value gives back exactly the pair (U, decimal string of T). -/
theorem c1_round_trip (n T : Nat) (U : List Char) (hU : isCanonical U)
    (hT1 : 1 ≤ T) (hTn : T ≤ n) :
    encode U T = some (compact U ++ decStr T) ∧
      decode (compact U ++ decStr T) = some (U, decStr T) := by
  have h36 : U.length = 36 := hU.1
  have hc32 : (compact U).length = 32 := by
    rw [compact_length U (by omega), h36]
  constructor
  · unfold encode
    rw [if_neg (by omega)]
  · unfold decode
    rw [if_neg (by rw [List.length_append, hc32]; omega),
      List.take_left' hc32, List.drop_left' hc32, expand_compact U hU]

theorem c1_round_trip_witness :
    isCanonical uuidEx ∧ 1 ≤ 2 ∧ 2 ≤ 2 ∧
      (encode uuidEx 2 = some (compact uuidEx ++ decStr 2) ∧
        decode (compact uuidEx ++ decStr 2) = some (uuidEx, decStr 2)) :=
  ⟨by decide, by decide, by decide,
    c1_round_trip 2 2 uuidEx (by decide) (by decide) (by decide)⟩

/-- C2: the dispatcher returns none exactly when the input is shorter
than 32 characters, or the tag suffix matches no registered tag string,
or the matched loader returns none; it returns some v exactly when all
three steps succeed and v is the loader's result for the reconstructed
canonical identifier. -/
theorem c2_dispatcher_composition {α : Type} (n : Nat)
    (loader : Nat → List Char → Option α) (s : List Char) :
    (nodeGet n loader s = none ↔
      s.length < 32 ∨ lookupTag n (s.drop 32) = none ∨
        ∃ t, lookupTag n (s.drop 32) = some t ∧
          loader t (expand (s.take 32)) = none) ∧
    (∀ v : α, nodeGet n loader s = some v ↔
      32 ≤ s.length ∧ ∃ t, lookupTag n (s.drop 32) = some t ∧
        loader t (expand (s.take 32)) = some v) :=
  ⟨nodeGet_eq_none_iff n loader s, fun v => nodeGet_eq_some_iff n loader s v⟩

/-- C3: tag resolution is exact string equality against the registered
tag strings (the minimal decimal strings assigned in declaration order):
a successful lookup means the suffix is literally the minimal decimal
string of the matched tag; the suffix 01 never matches even though tag 1
is registered, and the dispatcher rejects such an input. -/
theorem c3_exact_string_match {α : Type} (n t : Nat) (s s2 : List Char)
    (loader : Nat → List Char → Option α) (hn : 1 ≤ n) :
    (lookupTag n s = some t → 1 ≤ t ∧ t ≤ n ∧ s = decStr t) ∧
      lookupTag n ['1'] = some 1 ∧
      lookupTag n ['0', '1'] = none ∧
      (s2.drop 32 = ['0', '1'] → nodeGet n loader s2 = none) := by
  refine ⟨fun h => ?_, ?_, ?_, fun hs2 => ?_⟩
  · obtain ⟨h1, h2, h3⟩ := lookupTag_eq_some n s t h
    exact ⟨h1, h2, h3.symm⟩
  · cases n with
    | zero => omega
    | succ n2 =>
      show lookupFrom 1 (n2 + 1) ['1'] = some 1
      unfold lookupFrom
      rw [if_pos (by decide)]
  · exact lookupFrom_eq_none n 1 ['0', '1']
      (fun t2 ht1 _ => decStr_ne_zero_one t2 ht1)
  · rw [nodeGet_eq_none_iff]
    right; left
    rw [hs2]
    exact lookupFrom_eq_none n 1 ['0', '1']
      (fun t2 ht1 _ => decStr_ne_zero_one t2 ht1)

theorem c3_exact_string_match_witness :
    1 ≤ 1 ∧
      ((lookupTag 1 ['1'] = some 1 → 1 ≤ 1 ∧ 1 ≤ 1 ∧ ['1'] = decStr 1) ∧
        lookupTag 1 ['1'] = some 1 ∧
        lookupTag 1 ['0', '1'] = none ∧
        (("aaaaaaaaaaaaaaaaaaaaaaaaaaaaaaaa01".toList).drop 32 = ['0', '1'] →
          nodeGet 1 (fun _ _ => (some 0 : Option Nat))
            "aaaaaaaaaaaaaaaaaaaaaaaaaaaaaaaa01".toList = none)) :=
  ⟨by decide,
    c3_exact_string_match 1 1 ['1'] "aaaaaaaaaaaaaaaaaaaaaaaaaaaaaaaa01".toList
      (fun _ _ => (some 0 : Option Nat)) (by decide)⟩

/-- C4: every input shorter than 32 characters is rejected softly: decode
yields none, and the dispatcher yields none for every registry size and
every loader, so no loader is ever consulted. -/
theorem c4_short_input_rejection {α : Type} (n : Nat)
    (loader : Nat → List Char → Option α) (s : List Char)
    (h : s.length < 32) :
    decode s = none ∧ nodeGet n loader s = none := by
  constructor
  · unfold decode; rw [if_pos h]
  · unfold nodeGet; rw [if_pos h]

theorem c4_short_input_rejection_witness :
    decode ['x'] = none ∧
      nodeGet 1 (fun _ _ => (some 0 : Option Nat)) ['x'] = none :=
  c4_short_input_rejection 1 (fun _ _ => (some 0 : Option Nat)) ['x'] (by decide)

/-- C5: the encoder aborts (modelled as none) exactly on identifiers
shorter than 36 characters; for identifiers of length at least 36 the
abort branch is not taken and a value is returned. -/
theorem c5_encode_guard (u : List Char) (t : Nat) :
    (encode u t = none ↔ u.length < 36) ∧
      (36 ≤ u.length → encode u t = some (compact u ++ decStr t)) := by
  by_cases h : u.length < 36
  · constructor
    · unfold encode; rw [if_pos h]; simp [h]
    · intro h36; omega
  · constructor
    · unfold encode; rw [if_neg h]; simp [h]
    · intro h36; unfold encode; rw [if_neg h]

theorem c5_encode_guard_witness :
    (encode uuidEx 2 = none ↔ uuidEx.length < 36) ∧
      (36 ≤ uuidEx.length →
        encode uuidEx 2 = some (compact uuidEx ++ decStr 2)) :=
  c5_encode_guard uuidEx 2

/-- C6: for every syntactically valid canonical UUID string (36
characters, hyphens at offsets 8, 13, 18, 23), re-inserting hyphens after
removing them reconstructs the string exactly. -/
theorem c6_canonicalizer_inverse (U : List Char) (h : isCanonical U) :
    expand (compact U) = U :=
  expand_compact U h

theorem c6_canonicalizer_inverse_witness :
    isCanonical uuidEx ∧ expand (compact uuidEx) = uuidEx :=
  ⟨by decide, c6_canonicalizer_inverse uuidEx (by decide)⟩

/-- C7 counterexample: a 37-character identifier is accepted by the
encoder's length guard, yet its compact form has 33 characters, not the
fixed 32 the claim states for every accepted identifier. -/
theorem c7_counterexample :
    36 ≤ longId.length ∧ encode longId 1 = some (compact longId ++ decStr 1) ∧
      (compact longId).length = 33 ∧ ¬(compact longId).length = 32 := by
  decide

/-- C7 amended: for every identifier accepted by the encoder (length at
least 36) and every tag, the produced global identifier is compact id
followed by the minimal decimal tag string; the compact part has length
len - 4 (exactly 32 precisely when the identifier is canonical, of
length 36), the tag string is nonempty, and the total length is at
least 33. -/
theorem c7_global_id_structure (u : List Char) (t : Nat)
    (h : 36 ≤ u.length) :
    encode u t = some (compact u ++ decStr t) ∧
      (compact u).length = u.length - 4 ∧
      1 ≤ (decStr t).length ∧
      33 ≤ (compact u ++ decStr t).length ∧
      (u.length = 36 → (compact u).length = 32) := by
  have hc := compact_length u h
  refine ⟨?_, hc, decStr_length_pos t, ?_, fun h36 => by rw [hc, h36]⟩
  · unfold encode; rw [if_neg (by omega)]
  · rw [List.length_append, hc]
    have := decStr_length_pos t
    omega

theorem c7_global_id_structure_witness :
    encode uuidEx 1 = some (compact uuidEx ++ decStr 1) ∧
      (compact uuidEx).length = uuidEx.length - 4 ∧
      1 ≤ (decStr 1).length ∧
      33 ≤ (compact uuidEx ++ decStr 1).length ∧
      (uuidEx.length = 36 → (compact uuidEx).length = 32) :=
  c7_global_id_structure uuidEx 1 (by decide)

/-- C8: the registry entry at position i carries the tag string
decStr (i + 1); the first declared type gets tag string 1; the string 0
is never a registered tag string; every successful lookup yields a tag
of at least 1; and an input whose suffix after the split is the single
character 0 is dispatched to no loader and yields none. -/
theorem c8_tag_assignment {α : Type} (n t i : Nat) (s s0 : List Char)
    (loader : Nat → List Char → Option α) (hn : 1 ≤ n) (hi : i < n) :
    (variantNodeType n)[i]? = some (decStr (i + 1)) ∧
      (variantNodeType n)[0]? = some ['1'] ∧
      ['0'] ∉ variantNodeType n ∧
      (lookupTag n s = some t → 1 ≤ t) ∧
      (s0.drop 32 = ['0'] → nodeGet n loader s0 = none) := by
  refine ⟨?_, ?_, ?_, fun h => (lookupTag_eq_some n s t h).1, fun hs => ?_⟩
  · unfold variantNodeType
    rw [List.getElem?_map, List.getElem?_range hi]
    rfl
  · unfold variantNodeType
    rw [List.getElem?_map, List.getElem?_range (show 0 < n by omega)]
    rfl
  · intro hmem
    unfold variantNodeType at hmem
    obtain ⟨v, _, heq⟩ := List.mem_map.mp hmem
    exact decStr_ne_single_zero (v + 1) (by omega) heq
  · rw [nodeGet_eq_none_iff]
    right; left
    rw [hs]
    exact lookupFrom_eq_none n 1 ['0']
      (fun t2 ht1 _ => decStr_ne_single_zero t2 ht1)

theorem c8_tag_assignment_witness :
    (variantNodeType 1)[0]? = some (decStr (0 + 1)) ∧
      (variantNodeType 1)[0]? = some ['1'] ∧
      ['0'] ∉ variantNodeType 1 ∧
      (lookupTag 1 ['1'] = some 1 → 1 ≤ 1) ∧
      (("aaaaaaaaaaaaaaaaaaaaaaaaaaaaaaaa0".toList).drop 32 = ['0'] →
        nodeGet 1 (fun _ _ => (some 0 : Option Nat))
          "aaaaaaaaaaaaaaaaaaaaaaaaaaaaaaaa0".toList = none) :=
  c8_tag_assignment 1 1 0 ['1'] "aaaaaaaaaaaaaaaaaaaaaaaaaaaaaaaa0".toList
    (fun _ _ => (some 0 : Option Nat)) (by decide) (by decide)

/-- C9 counterexample: in the concrete scenario the code produces the 33
characters 123e4567e89b12d3a4564261141740002, which is not the literal
printed in the specification (that literal lost the character e at index
3 and contains a space before the tag digit). -/
theorem c9_counterexample :
    encode uuidEx 2 = some encodedEx ∧ encodedEx ≠ specLiteral ∧
      ¬encode uuidEx 2 = some specLiteral := by
  decide

/-- C9 amended scenario: with the canonical UUID
123e4567-e89b-12d3-a456-426614174000 and tag 2 (the second registered
type, User, in a registry of two types), compact gives the 32 characters
123e4567e89b12d3a456426614174000, encode appends the digit 2 giving the
33-character global id 123e4567e89b12d3a4564261141740002, decode splits
it back into the original canonical UUID and tag string 2, and the
dispatcher routes it to the loader of tag 2 with the canonical UUID. -/
theorem c9_concrete_scenario {α : Type} (loader : Nat → List Char → Option α) :
    compact uuidEx = "123e4567e89b12d3a456426614174000".toList ∧
      encode uuidEx 2 = some encodedEx ∧
      encodedEx = "123e4567e89b12d3a456426614174000".toList ++ decStr 2 ∧
      encodedEx.length = 33 ∧
      decode encodedEx = some (uuidEx, ['2']) ∧
      lookupTag 2 ['2'] = some 2 ∧
      nodeGet 2 loader encodedEx = loader 2 uuidEx := by
  refine ⟨by decide, by decide, by decide, by decide, by decide, by decide, ?_⟩
  unfold nodeGet
  rw [if_neg (by decide)]
  have h1 : lookupTag 2 (encodedEx.drop 32) = some 2 := by decide
  rw [h1]
  show loader 2 (expand (encodedEx.take 32)) = loader 2 uuidEx
  have h2 : expand (encodedEx.take 32) = uuidEx := by decide
  rw [h2]

/-- C10: an input of exactly 32 characters passes the length guard but
its tag suffix is empty, which matches no registered tag string, so the
dispatcher returns none without consulting any loader; consequently any
input the dispatcher accepts and routes has length at least 33. -/
theorem c10_exact_32_rejected {α : Type} (n : Nat)
    (loader : Nat → List Char → Option α) (s s2 : List Char) (v : α)
    (h : s.length = 32) :
    s.drop 32 = [] ∧ lookupTag n (s.drop 32) = none ∧
      nodeGet n loader s = none ∧
      (nodeGet n loader s2 = some v → 33 ≤ s2.length) := by
  have hdrop : s.drop 32 = [] := List.drop_eq_nil_of_le (by omega)
  have hlk : lookupTag n ([] : List Char) = none :=
    lookupFrom_eq_none n 1 [] (fun t2 _ _ heq => decStr_ne_nil t2 heq)
  refine ⟨hdrop, by rw [hdrop]; exact hlk, ?_, fun hs2 => ?_⟩
  · rw [nodeGet_eq_none_iff]
    right; left
    rw [hdrop]
    exact hlk
  · rw [nodeGet_eq_some_iff] at hs2
    obtain ⟨h32, t2, hlt, _⟩ := hs2
    obtain ⟨_, _, hds⟩ := lookupTag_eq_some n _ t2 hlt
    have hpos : 0 < (s2.drop 32).length := by
      rw [← hds]
      exact decStr_length_pos t2
    rw [List.length_drop] at hpos
    omega

theorem c10_exact_32_rejected_witness :
    ("aaaaaaaaaaaaaaaaaaaaaaaaaaaaaaaa".toList).drop 32 = [] ∧
      lookupTag 2 (("aaaaaaaaaaaaaaaaaaaaaaaaaaaaaaaa".toList).drop 32) = none ∧
      nodeGet 2 (fun _ _ => (some 0 : Option Nat))
        "aaaaaaaaaaaaaaaaaaaaaaaaaaaaaaaa".toList = none ∧
      (nodeGet 2 (fun _ _ => (some 0 : Option Nat)) encodedEx = some 0 →
        33 ≤ encodedEx.length) :=
  c10_exact_32_rejected 2 (fun _ _ => (some 0 : Option Nat))
    "aaaaaaaaaaaaaaaaaaaaaaaaaaaaaaaa".toList encodedEx 0 (by decide)

end RelayVerify
